import Mathlib

/-!
Verification of the manga-translate OCR/translation pipeline.

Shallow embedding of the repository's core components:
- `ocr_utils.py`: geometry helpers, reading-order sort, box merging;
- `translate_utils.py`: the batched translation engine with retry/backoff
  and the LibreTranslate fallback;
- `app.py`: the EasyOCR language normalizer and the auto-language prober.

Python floats are modelled as exact rationals (ℚ); the remote HTTP
endpoints are modelled as oracles (functions from the call/attempt index
to an abstract outcome), so theorems quantifying over the oracle cover
every possible behaviour of the remote service.
-/

namespace MangaTranslate

/-- A TextRegion: one OCR detection (`{"text": ..., "box": ..., "conf": ...}`
in the Python code).  The `translation` field models the `"translation"` key
that `translate_batch` adds to the dict; it is `none` until set. -/
structure Region where
  text : String
  box : List (ℚ × ℚ)
  conf : ℚ
  translation : Option String
deriving DecidableEq, Repr

/-- Minimum of a list of rationals, as computed by Python's `min` on a
nonempty list (`min(xs)`); the `[]` case is junk (Python raises there). -/
def listMin : List ℚ → ℚ
  | [] => 0
  | x :: xs => xs.foldl min x

/-- Maximum of a list of rationals ( Python's `max(xs)`); `[]` case is junk. -/
def listMax : List ℚ → ℚ
  | [] => 0
  | x :: xs => xs.foldl max x

/-- `box_to_rect` from `ocr_utils.py`: convert a 4-point box to a rectangle
`(x1, y1, x2, y2)` via coordinate-wise min/max. -/
def box_to_rect (box : List (ℚ × ℚ)) : ℚ × ℚ × ℚ × ℚ :=
  let xs := box.map Prod.fst
  let ys := box.map Prod.snd
  (listMin xs, listMin ys, listMax xs, listMax ys)

/-- `rect_center` from `ocr_utils.py`. -/
def rect_center (rect : ℚ × ℚ × ℚ × ℚ) : ℚ × ℚ :=
  ((rect.1 + rect.2.2.1) / 2, (rect.2.1 + rect.2.2.2) / 2)

/-- Center of a region's box (`rect_center(box_to_rect(it["box"]))`). -/
def centerOf (it : Region) : ℚ × ℚ := rect_center (box_to_rect it.box)

/-- Horizontal center coordinate of a region. -/
def cxOf (it : Region) : ℚ := (centerOf it).1

/-- Vertical center coordinate of a region. -/
def cyOf (it : Region) : ℚ := (centerOf it).2

/-! ### Box merging (`merge_nearby_boxes`, ocr_utils.py lines 53-114) -/

/-- Union rectangle of a group of regions: coordinatewise min/max over the
constituents' `box_to_rect` rectangles (lines 92-97 of `ocr_utils.py`). -/
def unionRect (g : List Region) : ℚ × ℚ × ℚ × ℚ :=
  let all_boxes := g.map (fun it => box_to_rect it.box)
  (listMin (all_boxes.map (fun b => b.1)),
   listMin (all_boxes.map (fun b => b.2.1)),
   listMax (all_boxes.map (fun b => b.2.2.1)),
   listMax (all_boxes.map (fun b => b.2.2.2)))

/-- The merged region built in the `else` branch of `merge_nearby_boxes`
(lines 90-112): space-joined text, axis-aligned quad of the union
rectangle, mean confidence.  The merged dict has no `"translation"` key. -/
def mergeGroup (g : List Region) : Region :=
  let u := unionRect g
  { text := " ".intercalate (g.map (fun it => it.text)),
    box := [(u.1, u.2.1), (u.2.2.1, u.2.1), (u.2.2.1, u.2.2.2), (u.1, u.2.2.2)],
    conf := (g.map (fun it => it.conf)).sum / (g.length : ℚ),
    translation := none }

/-- The inner `for j in range(i+1, len(items))` loop of `merge_nearby_boxes`:
scan the items after the anchor, claim (into `skip`) every unskipped item
whose center is within `threshold/2` vertically and `threshold*2`
horizontally of the anchor center `c`.  Returns the claimed regions in
encounter order together with the updated skip set. -/
def collect (thr : ℚ) (c : ℚ × ℚ) : List (Nat × Region) → List Nat → List Region × List Nat
  | [], skip => ([], skip)
  | (j, r) :: rest, skip =>
    if j ∈ skip then collect thr c rest skip
    else
      let cj := centerOf r
      if |c.2 - cj.2| < thr / 2 ∧ |c.1 - cj.1| < thr * 2 then
        let res := collect thr c rest (skip ++ [j])
        (r :: res.1, res.2)
      else collect thr c rest skip

/-- The outer `for i, item in enumerate(items)` loop of `merge_nearby_boxes`:
each unskipped item anchors a group; a singleton group passes the item
through unchanged, a larger group is fused by `mergeGroup`. -/
def mergeLoop (thr : ℚ) : List (Nat × Region) → List Nat → List Region
  | [], _ => []
  | (i, it) :: rest, skip =>
    if i ∈ skip then mergeLoop thr rest skip
    else
      let res := collect thr (centerOf it) rest skip
      if res.1 = [] then it :: mergeLoop thr rest res.2
      else mergeGroup (it :: res.1) :: mergeLoop thr rest res.2

/-- `merge_nearby_boxes` from `ocr_utils.py` (Python default threshold 50.0).
Lists of length ≤ 1 are returned unchanged (the `len(items) <= 1` guard). -/
def merge_nearby_boxes (items : List Region) (thr : ℚ) : List Region :=
  if items.length ≤ 1 then items else mergeLoop thr items.enum []

/-- Rectangle `R` contains rectangle `S` (both as `(x1, y1, x2, y2)`). -/
def rectContains (R S : ℚ × ℚ × ℚ × ℚ) : Prop :=
  R.1 ≤ S.1 ∧ R.2.1 ≤ S.2.1 ∧ S.2.2.1 ≤ R.2.2.1 ∧ S.2.2.2 ≤ R.2.2.2

/-! ### Basic min/max facts -/

theorem foldl_min_le_init (xs : List ℚ) (a : ℚ) : xs.foldl min a ≤ a := by
  induction xs generalizing a with
  | nil => exact le_refl a
  | cons x xs ih => exact le_trans (ih (min a x)) (min_le_left a x)

theorem foldl_min_le_mem {x : ℚ} (xs : List ℚ) (a : ℚ) (hx : x ∈ xs) :
    xs.foldl min a ≤ x := by
  induction xs generalizing a with
  | nil => cases hx
  | cons y ys ih =>
    rcases List.mem_cons.mp hx with h | h
    · subst h
      exact le_trans (foldl_min_le_init ys (min a x)) (min_le_right a x)
    · exact ih (min a y) h

theorem listMin_le {x : ℚ} {l : List ℚ} (hx : x ∈ l) : listMin l ≤ x := by
  cases l with
  | nil => cases hx
  | cons y ys =>
    rcases List.mem_cons.mp hx with h | h
    · subst h
      exact foldl_min_le_init ys x
    · exact foldl_min_le_mem ys y h

theorem foldl_min_mem (xs : List ℚ) (a : ℚ) : xs.foldl min a = a ∨ xs.foldl min a ∈ xs := by
  induction xs generalizing a with
  | nil => exact Or.inl rfl
  | cons x xs ih =>
    rcases ih (min a x) with h | h
    · rcases min_cases a x with ⟨he, _⟩ | ⟨he, _⟩
      · exact Or.inl (by rw [List.foldl_cons, h, he])
      · exact Or.inr (by rw [List.foldl_cons, h, he]; exact List.mem_cons_self x xs)
    · exact Or.inr (List.mem_cons_of_mem x h)

theorem listMin_mem {l : List ℚ} (h : l ≠ []) : listMin l ∈ l := by
  cases l with
  | nil => exact absurd rfl h
  | cons x xs =>
    rcases foldl_min_mem xs x with he | he
    · rw [listMin, he]; exact List.mem_cons_self x xs
    · exact List.mem_cons_of_mem x he

theorem foldl_max_init_le (xs : List ℚ) (a : ℚ) : a ≤ xs.foldl max a := by
  induction xs generalizing a with
  | nil => exact le_refl a
  | cons x xs ih => exact le_trans (le_max_left a x) (ih (max a x))

theorem foldl_max_mem_le {x : ℚ} (xs : List ℚ) (a : ℚ) (hx : x ∈ xs) :
    x ≤ xs.foldl max a := by
  induction xs generalizing a with
  | nil => cases hx
  | cons y ys ih =>
    rcases List.mem_cons.mp hx with h | h
    · subst h
      exact le_trans (le_max_right a x) (foldl_max_init_le ys (max a x))
    · exact ih (max a y) h

theorem le_listMax {x : ℚ} {l : List ℚ} (hx : x ∈ l) : x ≤ listMax l := by
  cases l with
  | nil => cases hx
  | cons y ys =>
    rcases List.mem_cons.mp hx with h | h
    · subst h
      exact foldl_max_init_le ys x
    · exact foldl_max_mem_le ys y h

theorem foldl_max_mem (xs : List ℚ) (a : ℚ) : xs.foldl max a = a ∨ xs.foldl max a ∈ xs := by
  induction xs generalizing a with
  | nil => exact Or.inl rfl
  | cons x xs ih =>
    rcases ih (max a x) with h | h
    · rcases max_cases a x with ⟨he, _⟩ | ⟨he, _⟩
      · exact Or.inl (by rw [List.foldl_cons, h, he])
      · exact Or.inr (by rw [List.foldl_cons, h, he]; exact List.mem_cons_self x xs)
    · exact Or.inr (List.mem_cons_of_mem x h)

theorem listMax_mem {l : List ℚ} (h : l ≠ []) : listMax l ∈ l := by
  cases l with
  | nil => exact absurd rfl h
  | cons x xs =>
    rcases foldl_max_mem xs x with he | he
    · rw [listMax, he]; exact List.mem_cons_self x xs
    · exact List.mem_cons_of_mem x he

theorem listMin_le_listMax (l : List ℚ) : listMin l ≤ listMax l := by
  cases l with
  | nil => exact le_refl 0
  | cons x xs =>
    exact le_trans (listMin_le (List.mem_cons_self x xs))
      (le_listMax (List.mem_cons_self x xs))

/-! ### Structural facts about `merge_nearby_boxes` -/

theorem collect_mem {thr : ℚ} {c : ℚ × ℚ} :
    ∀ (l : List (Nat × Region)) (skip : List Nat) (r : Region),
      r ∈ (collect thr c l skip).1 → r ∈ l.map Prod.snd
  | [], _, r, h => by simp [collect] at h
  | (j, x) :: rest, skip, r, h => by
    simp only [collect] at h
    split_ifs at h with hj hp
    · exact List.mem_cons_of_mem _ (collect_mem rest skip r h)
    · simp only [List.mem_cons] at h
      rcases h with h | h
      · exact h ▸ List.mem_cons_self _ _
      · exact List.mem_cons_of_mem _ (collect_mem rest (skip ++ [j]) r h)
    · exact List.mem_cons_of_mem _ (collect_mem rest skip r h)

theorem mergeLoop_length (thr : ℚ) :
    ∀ (l : List (Nat × Region)) (skip : List Nat),
      (mergeLoop thr l skip).length ≤ l.length
  | [], _ => by simp [mergeLoop]
  | (i, x) :: rest, skip => by
    simp only [mergeLoop]
    split_ifs with hi hg
    · exact le_trans (mergeLoop_length thr rest skip) (Nat.le_succ _)
    · simpa using Nat.succ_le_succ (mergeLoop_length thr rest _)
    · simpa using Nat.succ_le_succ (mergeLoop_length thr rest _)

theorem mergeLoop_decomp {thr : ℚ} :
    ∀ (l : List (Nat × Region)) (skip : List Nat) (out : Region),
      out ∈ mergeLoop thr l skip →
      ∃ g, g ≠ [] ∧ (∀ r ∈ g, r ∈ l.map Prod.snd) ∧
        (g = [out] ∨ (2 ≤ g.length ∧ out = mergeGroup g))
  | [], _, out, h => by simp [mergeLoop] at h
  | (i, x) :: rest, skip, out, h => by
    simp only [mergeLoop] at h
    split_ifs at h with hi hg
    · obtain ⟨g, hne, hmem, hcase⟩ := mergeLoop_decomp rest skip out h
      exact ⟨g, hne, fun r hr => List.mem_cons_of_mem _ (hmem r hr), hcase⟩
    · simp only [List.mem_cons] at h
      rcases h with h | h
      · refine ⟨[out], by simp, ?_, Or.inl rfl⟩
        intro r hr
        rw [List.mem_singleton.mp hr, ← h]
        exact List.mem_cons_self _ _
      · obtain ⟨g, hne, hmem, hcase⟩ := mergeLoop_decomp rest _ out h
        exact ⟨g, hne, fun r hr => List.mem_cons_of_mem _ (hmem r hr), hcase⟩
    · simp only [List.mem_cons] at h
      rcases h with h | h
      · refine ⟨x :: (collect thr (centerOf x) rest skip).1, by simp, ?_, Or.inr ⟨?_, h⟩⟩
        · intro r hr
          rcases List.mem_cons.mp hr with hr | hr
          · exact hr ▸ List.mem_cons_self _ _
          · exact List.mem_cons_of_mem _ (collect_mem rest skip r hr)
        · have : (collect thr (centerOf x) rest skip).1 ≠ [] := hg
          have hlen : 1 ≤ (collect thr (centerOf x) rest skip).1.length :=
            Nat.one_le_iff_ne_zero.mpr (fun h0 => this (List.length_eq_zero.mp h0))
          simpa using Nat.succ_le_succ hlen
      · obtain ⟨g, hne, hmem, hcase⟩ := mergeLoop_decomp rest _ out h
        exact ⟨g, hne, fun r hr => List.mem_cons_of_mem _ (hmem r hr), hcase⟩

theorem unionRect_bounds {g : List Region} {r : Region} (hr : r ∈ g) :
    (unionRect g).1 ≤ (box_to_rect r.box).1 ∧
    (unionRect g).2.1 ≤ (box_to_rect r.box).2.1 ∧
    (box_to_rect r.box).2.2.1 ≤ (unionRect g).2.2.1 ∧
    (box_to_rect r.box).2.2.2 ≤ (unionRect g).2.2.2 := by
  have hb : box_to_rect r.box ∈ g.map (fun it => box_to_rect it.box) :=
    List.mem_map.mpr ⟨r, hr, rfl⟩
  refine ⟨listMin_le ?_, listMin_le ?_, le_listMax ?_, le_listMax ?_⟩ <;>
    exact List.mem_map.mpr ⟨_, hb, rfl⟩

theorem box_to_rect_fst_le (box : List (ℚ × ℚ)) :
    (box_to_rect box).1 ≤ (box_to_rect box).2.2.1 := listMin_le_listMax _

theorem box_to_rect_snd_le (box : List (ℚ × ℚ)) :
    (box_to_rect box).2.1 ≤ (box_to_rect box).2.2.2 := listMin_le_listMax _

theorem unionRect_le {g : List Region} (hne : g ≠ []) :
    (unionRect g).1 ≤ (unionRect g).2.2.1 ∧ (unionRect g).2.1 ≤ (unionRect g).2.2.2 := by
  obtain ⟨r, hr⟩ := List.exists_mem_of_ne_nil g hne
  obtain ⟨h1, h2, h3, h4⟩ := unionRect_bounds hr
  exact ⟨le_trans h1 (le_trans (box_to_rect_fst_le _) h3),
         le_trans h2 (le_trans (box_to_rect_snd_le _) h4)⟩

theorem box_to_rect_quad {x1 y1 x2 y2 : ℚ} (hx : x1 ≤ x2) (hy : y1 ≤ y2) :
    box_to_rect [(x1, y1), (x2, y1), (x2, y2), (x1, y2)] = (x1, y1, x2, y2) := by
  simp [box_to_rect, listMin, listMax, min_eq_left, max_eq_right, hx, hy,
    min_eq_left hx, max_eq_right hx, min_eq_left hy, max_eq_right hy]

theorem mergeGroup_rect {g : List Region} (hne : g ≠ []) :
    box_to_rect (mergeGroup g).box = unionRect g := by
  obtain ⟨hx, hy⟩ := unionRect_le hne
  show box_to_rect [((unionRect g).1, (unionRect g).2.1),
      ((unionRect g).2.2.1, (unionRect g).2.1),
      ((unionRect g).2.2.1, (unionRect g).2.2.2),
      ((unionRect g).1, (unionRect g).2.2.2)] = unionRect g
  rw [box_to_rect_quad hx hy]

theorem mergeGroup_contains {g : List Region} (hne : g ≠ []) :
    ∀ r ∈ g, rectContains (box_to_rect (mergeGroup g).box) (box_to_rect r.box) := by
  intro r hr
  rw [mergeGroup_rect hne]
  exact unionRect_bounds hr

theorem enum_map_snd_eq (l : List Region) : l.enum.map Prod.snd = l := by
  simp [List.enum, List.enumFrom_map_snd]

theorem enum_length_eq (l : List Region) : l.enum.length = l.length := by
  simp [List.enum, List.enumFrom_length]

/-- C5: for every input list and threshold, `merge_nearby_boxes` does not
increase the item count, and every output region either passes through
unchanged or is the fusion of a nonempty group of input regions whose
rectangles are all contained in the output region's rectangle. -/
theorem merge_nearby_boxes_sound :
    ∀ (items : List Region) (thr : ℚ),
      (merge_nearby_boxes items thr).length ≤ items.length ∧
      ∀ out ∈ merge_nearby_boxes items thr,
        ∃ g, g ≠ [] ∧ (∀ r ∈ g, r ∈ items) ∧ (g = [out] ∨ out = mergeGroup g) ∧
          ∀ r ∈ g, rectContains (box_to_rect out.box) (box_to_rect r.box) := by
  intro items thr
  unfold merge_nearby_boxes
  split_ifs with h
  · refine ⟨le_refl _, ?_⟩
    intro out hout
    refine ⟨[out], by simp, by simpa using hout, Or.inl rfl, ?_⟩
    intro r hr
    rw [List.mem_singleton.mp hr]
    exact ⟨le_refl _, le_refl _, le_refl _, le_refl _⟩
  · constructor
    · calc (mergeLoop thr items.enum []).length ≤ items.enum.length :=
            mergeLoop_length thr items.enum []
        _ = items.length := enum_length_eq items
    · intro out hout
      obtain ⟨g, hne, hmem, hcase⟩ := mergeLoop_decomp items.enum [] out hout
      have hmem' : ∀ r ∈ g, r ∈ items := by
        intro r hr
        have hx := hmem r hr
        rwa [enum_map_snd_eq items] at hx
      rcases hcase with hg | ⟨_, hg⟩
      · refine ⟨g, hne, hmem', Or.inl hg, ?_⟩
        intro r hr
        rw [hg] at hr
        rw [List.mem_singleton.mp hr]
        exact ⟨le_refl _, le_refl _, le_refl _, le_refl _⟩
      · refine ⟨g, hne, hmem', Or.inr hg, ?_⟩
        intro r hr
        rw [hg]
        exact mergeGroup_contains hne r hr

/-- Example region used in concrete witnesses and counterexamples. -/
def regionA : Region := ⟨"a", [(0, 0), (10, 0), (10, 10), (0, 10)], 1, none⟩

/-- Second example region; close enough to `regionA` to be merged with it. -/
def regionB : Region := ⟨"b", [(5, 0), (15, 0), (15, 10), (5, 10)], 0, none⟩

theorem merge_example_eval :
    merge_nearby_boxes [regionA, regionB] 50 = [mergeGroup [regionA, regionB]] := by
  norm_num [merge_nearby_boxes, mergeLoop, collect, List.enum, List.enumFrom,
    centerOf, box_to_rect, rect_center, listMin, listMax, regionA, regionB]

theorem mergeGroup_example_eval :
    mergeGroup [regionA, regionB] =
      ⟨"a b", [(0, 0), (15, 0), (15, 10), (0, 10)], 1 / 2, none⟩ := by
  norm_num [mergeGroup, unionRect, box_to_rect, listMin, listMax, regionA, regionB]
  rfl

/-- Witness for C5: a concrete two-region merge. -/
theorem merge_nearby_boxes_sound_witness :
    (merge_nearby_boxes [regionA, regionB] 50).length ≤ 2 ∧
      ∃ g, g ≠ [] ∧ (∀ r ∈ g, r ∈ [regionA, regionB]) ∧
        (g = [mergeGroup [regionA, regionB]] ∨
          mergeGroup [regionA, regionB] = mergeGroup g) ∧
        ∀ r ∈ g,
          rectContains (box_to_rect (mergeGroup [regionA, regionB]).box)
            (box_to_rect r.box) := by
  refine ⟨(merge_nearby_boxes_sound [regionA, regionB] 50).1, ?_⟩
  exact (merge_nearby_boxes_sound [regionA, regionB] 50).2 _
    (by rw [merge_example_eval]; exact List.mem_singleton_self _)

/-- Counterexample for C4 as stated: the spec's quad
`[[x1,y1],[x2,y1],[x2,y2],[x1,y1]]` repeats the first corner; the code's
fourth corner is `[x1,y2]`.  On a concrete merge of two regions with union
rectangle `(0,0,15,10)` the produced box ends in `(0,10)`, not `(0,0)`. -/
theorem mergeGroup_box_counterexample :
    (merge_nearby_boxes [regionA, regionB] 50).map Region.box =
      [[(0, 0), (15, 0), (15, 10), (0, 10)]] ∧
    (merge_nearby_boxes [regionA, regionB] 50).map Region.box ≠
      [[(0, 0), (15, 0), (15, 10), (0, 0)]] := by
  rw [merge_example_eval, mergeGroup_example_eval]
  norm_num

/-- C4 (amended): a group of two or more regions fused by
`merge_nearby_boxes` with union rectangle `(x1,y1,x2,y2)` gets box
`[[x1,y1],[x2,y1],[x2,y2],[x1,y2]]` (the fourth point is `[x1,y2]`, not
`[x1,y1]` as the spec writes), text the space-join of constituent texts in
encounter order, and confidence the arithmetic mean of constituent
confidences; and every `merge_nearby_boxes` output is either an input item
or the fusion of such a group. -/
theorem mergeGroup_fields :
    (∀ g : List Region, 2 ≤ g.length →
      (mergeGroup g).box =
        [((unionRect g).1, (unionRect g).2.1),
         ((unionRect g).2.2.1, (unionRect g).2.1),
         ((unionRect g).2.2.1, (unionRect g).2.2.2),
         ((unionRect g).1, (unionRect g).2.2.2)] ∧
      (mergeGroup g).text = " ".intercalate (g.map (fun it => it.text)) ∧
      (mergeGroup g).conf = (g.map (fun it => it.conf)).sum / (g.length : ℚ)) ∧
    ∀ (items : List Region) (thr : ℚ) (out : Region),
      out ∈ merge_nearby_boxes items thr →
      out ∈ items ∨ ∃ g, 2 ≤ g.length ∧ out = mergeGroup g := by
  constructor
  · intro g _
    exact ⟨rfl, rfl, rfl⟩
  · intro items thr out hout
    unfold merge_nearby_boxes at hout
    split_ifs at hout with h
    · exact Or.inl hout
    · obtain ⟨g, _, hmem, hcase⟩ := mergeLoop_decomp items.enum [] out hout
      rcases hcase with hg | ⟨h2, hg⟩
      · refine Or.inl ?_
        have hx := hmem out (hg ▸ List.mem_singleton_self out)
        rwa [enum_map_snd_eq items] at hx
      · exact Or.inr ⟨g, h2, hg⟩

/-- Witness for the amended C4 at a concrete two-region group. -/
theorem mergeGroup_fields_witness :
    ((mergeGroup [regionA, regionB]).box =
        [((unionRect [regionA, regionB]).1, (unionRect [regionA, regionB]).2.1),
         ((unionRect [regionA, regionB]).2.2.1, (unionRect [regionA, regionB]).2.1),
         ((unionRect [regionA, regionB]).2.2.1, (unionRect [regionA, regionB]).2.2.2),
         ((unionRect [regionA, regionB]).1, (unionRect [regionA, regionB]).2.2.2)] ∧
      (mergeGroup [regionA, regionB]).text =
        " ".intercalate ([regionA, regionB].map (fun it => it.text)) ∧
      (mergeGroup [regionA, regionB]).conf =
        ([regionA, regionB].map (fun it => it.conf)).sum /
          (([regionA, regionB] : List Region).length : ℚ)) ∧
    (mergeGroup [regionA, regionB] ∈ [regionA, regionB] ∨
      ∃ g, 2 ≤ g.length ∧ mergeGroup [regionA, regionB] = mergeGroup g) :=
  ⟨mergeGroup_fields.1 [regionA, regionB] (by norm_num),
   mergeGroup_fields.2 [regionA, regionB] 50 _
     (by rw [merge_example_eval]; exact List.mem_singleton_self _)⟩

/-! ### Reading-order sort (`sort_reading_order`, ocr_utils.py lines 20-50) -/

/-- The dynamically computed row height: `max(12.0, y_span / 20.0)` where
`y_span = max(ys) - min(ys) if ys else 1.0` over the regions' vertical
centers (lines 32-34 of `ocr_utils.py`). -/
def rowBucketOf (items : List Region) : ℚ :=
  let ys := items.map cyOf
  let ySpan := if ys = [] then 1 else listMax ys - listMin ys
  max 12 (ySpan / 20)

/-- The `row_key` function: `int(y // row_bucket)`, i.e. the floor of
`y / row_bucket` (Python float floor-division). -/
def rowKeyOf (rb y : ℚ) : ℤ := ⌊y / rb⌋

/-- Row-bucket key of a region. -/
def keyOf (rb : ℚ) (it : Region) : ℤ := rowKeyOf rb (cyOf it)

/-- Comparison by horizontal center, the sort key of
`sorted(buckets[rk], key=lambda t: t[0][0])`. -/
def cxLe (a b : Region) : Prop := cxOf a ≤ cxOf b

instance : DecidableRel cxLe :=
  fun a b => inferInstanceAs (Decidable (cxOf a ≤ cxOf b))

instance : IsTotal Region cxLe := ⟨fun a b => le_total (cxOf a) (cxOf b)⟩

instance : IsTrans Region cxLe := ⟨fun _ _ _ hab hbc => le_trans hab hbc⟩

/-- The ascending list of distinct row keys, `sorted(buckets.keys())`.
Python's `sorted` is a stable comparison sort; on a duplicate-free list any
correct sort produces the same ascending list, here via insertion sort. -/
def sortKeys (items : List Region) (rb : ℚ) : List ℤ :=
  List.insertionSort (· ≤ ·) ((items.map (keyOf rb)).dedup)

/-- One row of the output: the regions of bucket `k` in encounter order,
stably sorted by horizontal center.  Python's `sorted` is stable; insertion
sort is the same stable sort. -/
def rowComp (items : List Region) (rb : ℚ) (k : ℤ) : List Region :=
  List.insertionSort cxLe (items.filter (fun it => decide (keyOf rb it = k)))

/-- `sort_reading_order` from `ocr_utils.py`: bucket the regions into rows
by their vertical centers, output buckets in ascending key order, each
bucket stably sorted by horizontal center. -/
def sort_reading_order (items : List Region) : List Region :=
  if items = [] then items
  else
    let rb := rowBucketOf items
    ((sortKeys items rb).map (rowComp items rb)).flatten

theorem listMin_perm {l l' : List ℚ} (h : l.Perm l') : listMin l = listMin l' := by
  rcases eq_or_ne l [] with rfl | hne
  · rw [List.Perm.eq_nil h.symm]
  · have hne' : l' ≠ [] := fun he => hne (List.Perm.eq_nil (he ▸ h))
    exact le_antisymm (listMin_le (h.mem_iff.mpr (listMin_mem hne')))
      (listMin_le (h.symm.mem_iff.mpr (listMin_mem hne)))

theorem listMax_perm {l l' : List ℚ} (h : l.Perm l') : listMax l = listMax l' := by
  rcases eq_or_ne l [] with rfl | hne
  · rw [List.Perm.eq_nil h.symm]
  · have hne' : l' ≠ [] := fun he => hne (List.Perm.eq_nil (he ▸ h))
    exact le_antisymm (le_listMax (h.symm.mem_iff.mpr (listMax_mem hne)))
      (le_listMax (h.mem_iff.mpr (listMax_mem hne')))

theorem rowBucketOf_perm {l l' : List Region} (h : l.Perm l') :
    rowBucketOf l = rowBucketOf l' := by
  have hm : (l.map cyOf).Perm (l'.map cyOf) := h.map cyOf
  simp only [rowBucketOf]
  rcases eq_or_ne (l.map cyOf) [] with he | he
  · have h0 := hm
    rw [he] at h0
    rw [he, List.Perm.eq_nil h0.symm]
  · have he' : l'.map cyOf ≠ [] := fun h0 => he (List.Perm.eq_nil (h0 ▸ hm))
    rw [if_neg he, if_neg he', listMin_perm hm, listMax_perm hm]

theorem sortKeys_perm_eq {l l' : List Region} (rb : ℚ) (h : l.Perm l') :
    sortKeys l rb = sortKeys l' rb := by
  have hperm : (sortKeys l rb).Perm (sortKeys l' rb) :=
    ((List.perm_insertionSort _ _).trans ((h.map (keyOf rb)).dedup)).trans
      (List.perm_insertionSort _ _).symm
  exact List.eq_of_perm_of_sorted hperm
    (List.sorted_insertionSort _ _) (List.sorted_insertionSort _ _)

theorem partition_perm (rb : ℚ) :
    ∀ (ks : List ℤ) (l : List Region), ks.Nodup → (∀ x ∈ l, keyOf rb x ∈ ks) →
      ((ks.map (fun k => l.filter (fun it => decide (keyOf rb it = k)))).flatten).Perm l
  | [], l, _, hcov => by
    cases l with
    | nil => simp
    | cons x xs => exact absurd (hcov x (List.mem_cons_self x xs)) (List.not_mem_nil _)
  | k :: ks, l, hnd, hcov => by
    have hknotin : k ∉ ks := (List.nodup_cons.mp hnd).1
    have hndtail : ks.Nodup := (List.nodup_cons.mp hnd).2
    simp only [List.map_cons, List.flatten_cons]
    have hstep : ∀ k' ∈ ks,
        l.filter (fun it => decide (keyOf rb it = k')) =
          (l.filter (fun it => !decide (keyOf rb it = k))).filter
            (fun it => decide (keyOf rb it = k')) := by
      intro k' hk'
      rw [List.filter_filter]
      refine (List.filter_congr ?_).symm
      intro x _
      by_cases hx : keyOf rb x = k'
      · have hk'k : k' ≠ k := fun hc => hknotin (hc ▸ hk')
        simp [hx, hk'k]
      · simp [hx]
    rw [List.map_congr_left hstep]
    have hcov' : ∀ x ∈ l.filter (fun it => !decide (keyOf rb it = k)), keyOf rb x ∈ ks := by
      intro x hx
      obtain ⟨hxl, hxb⟩ := List.mem_filter.mp hx
      have hne : keyOf rb x ≠ k := by simpa using hxb
      rcases List.mem_cons.mp (hcov x hxl) with hc | hc
      · exact absurd hc hne
      · exact hc
    have ih := partition_perm rb ks (l.filter (fun it => !decide (keyOf rb it = k)))
      hndtail hcov'
    exact ((List.Perm.refl (l.filter (fun it => decide (keyOf rb it = k)))).append ih).trans
      (List.filter_append_perm _ l)

theorem flatten_map_perm {ks : List ℤ} {f g : ℤ → List Region}
    (h : ∀ k ∈ ks, (f k).Perm (g k)) : ((ks.map f).flatten).Perm ((ks.map g).flatten) := by
  induction ks with
  | nil => simp
  | cons k ks ih =>
    simp only [List.map_cons, List.flatten_cons]
    exact (h k (List.mem_cons_self k ks)).append
      (ih (fun k' hk' => h k' (List.mem_cons_of_mem k hk')))

theorem keyOf_mem_sortKeys {items : List Region} {x : Region} (rb : ℚ) (hx : x ∈ items) :
    keyOf rb x ∈ sortKeys items rb := by
  unfold sortKeys
  rw [List.mem_insertionSort]
  exact List.mem_dedup.mpr (List.mem_map_of_mem (keyOf rb) hx)

theorem sortKeys_nodup (items : List Region) (rb : ℚ) : (sortKeys items rb).Nodup :=
  (List.Perm.nodup_iff (List.perm_insertionSort _ _)).mpr (List.nodup_dedup _)

theorem sort_reading_order_perm (items : List Region) :
    (sort_reading_order items).Perm items := by
  unfold sort_reading_order
  split_ifs with h
  · exact List.Perm.refl items
  · refine (flatten_map_perm ?_).trans
      (partition_perm (rowBucketOf items) (sortKeys items (rowBucketOf items)) items
        (sortKeys_nodup items (rowBucketOf items))
        (fun x hx => keyOf_mem_sortKeys (rowBucketOf items) hx))
    intro k _
    exact List.perm_insertionSort _ _

theorem sort_eq {items : List Region} (h : items ≠ []) :
    sort_reading_order items =
      ((sortKeys items (rowBucketOf items)).map
        (rowComp items (rowBucketOf items))).flatten := by
  unfold sort_reading_order
  rw [if_neg h]

theorem mem_rowComp_key {items : List Region} {rb : ℚ} {k : ℤ} {x : Region}
    (hx : x ∈ rowComp items rb k) : keyOf rb x = k := by
  unfold rowComp at hx
  rw [List.mem_insertionSort] at hx
  exact of_decide_eq_true (List.mem_filter.mp hx).2

theorem filter_rowComp_ne {items : List Region} {rb : ℚ} {k k' : ℤ}
    (p : Region → Bool) (hp : ∀ x, p x = true → keyOf rb x = k) (hkk : k ≠ k') :
    (rowComp items rb k').filter p = [] := by
  rw [List.filter_eq_nil_iff]
  intro a ha hpa
  exact hkk ((hp a hpa) ▸ mem_rowComp_key ha)

theorem flatten_eq_of_single {g : ℤ → List Region} :
    ∀ (ks : List ℤ) (k : ℤ), ks.Nodup → k ∈ ks → (∀ k' ∈ ks, k' ≠ k → g k' = []) →
      ((ks.map g).flatten) = g k
  | [], k, _, hk, _ => absurd hk (List.not_mem_nil k)
  | a :: ks, k, hnd, hk, hz => by
    simp only [List.map_cons, List.flatten_cons]
    rcases List.mem_cons.mp hk with rfl | hk'
    · have hrest : ∀ k' ∈ ks, g k' = [] := by
        intro k' hk2
        exact hz k' (List.mem_cons_of_mem _ hk2)
          (fun hc => (List.nodup_cons.mp hnd).1 (hc ▸ hk2))
      have : (ks.map g).flatten = [] := by
        rw [List.flatten_eq_nil_iff]
        intro l hl
        obtain ⟨k', hk', rfl⟩ := List.mem_map.mp hl
        exact hrest k' hk'
      rw [this, List.append_nil]
    · have ha : g a = [] := by
        refine hz a (List.mem_cons_self a ks) ?_
        intro hc
        exact (List.nodup_cons.mp hnd).1 (hc ▸ hk')
      rw [ha, List.nil_append]
      exact flatten_eq_of_single ks k (List.nodup_cons.mp hnd).2 hk'
        (fun k' h1 h2 => hz k' (List.mem_cons_of_mem a h1) h2)

theorem filter_sort_pick {items : List Region} {k : ℤ} (hne : items ≠ [])
    (p : Region → Bool) (hp : ∀ x, p x = true → keyOf (rowBucketOf items) x = k)
    (hk : k ∈ sortKeys items (rowBucketOf items)) :
    (sort_reading_order items).filter p =
      (rowComp items (rowBucketOf items) k).filter p := by
  rw [sort_eq hne, List.filter_flatten, List.map_map]
  exact flatten_eq_of_single _ k (sortKeys_nodup items _) hk
    (fun k' _ hk' => filter_rowComp_ne p hp (fun hc => hk' hc.symm))

/-- C6: `sort_reading_order` is idempotent.  Sorting a sorted list leaves
all row buckets and the row height unchanged (they depend only on the
multiset of regions), and each already-sorted row is a fixed point of the
stable sort. -/
theorem sort_reading_order_idem :
    ∀ items : List Region,
      sort_reading_order (sort_reading_order items) = sort_reading_order items := by
  intro items
  rcases eq_or_ne items [] with rfl | hne
  · simp [sort_reading_order]
  · have hperm := sort_reading_order_perm items
    have hsne : sort_reading_order items ≠ [] := by
      intro he
      rw [he] at hperm
      exact hne (List.Perm.eq_nil hperm.symm)
    have hrb : rowBucketOf (sort_reading_order items) = rowBucketOf items :=
      rowBucketOf_perm hperm
    have hK : sortKeys (sort_reading_order items) (rowBucketOf items) =
        sortKeys items (rowBucketOf items) := sortKeys_perm_eq _ hperm
    rw [sort_eq hsne, hrb, hK]
    conv_rhs => rw [sort_eq hne]
    refine congrArg List.flatten (List.map_congr_left ?_)
    intro k hk
    show List.insertionSort cxLe
        ((sort_reading_order items).filter (fun it =>
          decide (keyOf (rowBucketOf items) it = k))) =
      rowComp items (rowBucketOf items) k
    rw [filter_sort_pick hne _ (fun x h => of_decide_eq_true h) hk]
    have hself : (rowComp items (rowBucketOf items) k).filter
        (fun it => decide (keyOf (rowBucketOf items) it = k)) =
        rowComp items (rowBucketOf items) k := by
      rw [List.filter_eq_self]
      intro a ha
      exact decide_eq_true (mem_rowComp_key ha)
    rw [hself]
    exact List.Sorted.insertionSort_eq (List.sorted_insertionSort cxLe _)

theorem filter_cx_orderedInsert (c : ℚ) (a : Region) :
    ∀ s : List Region,
      (List.orderedInsert cxLe a s).filter (fun x => decide (cxOf x = c)) =
        if cxOf a = c then a :: s.filter (fun x => decide (cxOf x = c))
        else s.filter (fun x => decide (cxOf x = c))
  | [] => by
    by_cases h : cxOf a = c <;> simp [List.orderedInsert, h]
  | b :: s => by
    simp only [List.orderedInsert]
    by_cases hab : cxLe a b
    · rw [if_pos hab]
      by_cases ha : cxOf a = c <;> simp [List.filter_cons, ha]
    · rw [if_neg hab]
      have hba : cxOf b < cxOf a := lt_of_not_le hab
      by_cases ha : cxOf a = c
      · have hb : cxOf b ≠ c := ha ▸ ne_of_lt hba
        simp [List.filter_cons, hb, ha, filter_cx_orderedInsert c a s]
      · by_cases hb : cxOf b = c <;>
          simp [List.filter_cons, hb, ha, filter_cx_orderedInsert c a s]

theorem filter_cx_insertionSort (c : ℚ) :
    ∀ L : List Region,
      (List.insertionSort cxLe L).filter (fun x => decide (cxOf x = c)) =
        L.filter (fun x => decide (cxOf x = c))
  | [] => rfl
  | a :: L => by
    simp only [List.insertionSort]
    rw [filter_cx_orderedInsert c a (List.insertionSort cxLe L)]
    by_cases ha : cxOf a = c <;>
      simp [List.filter_cons, ha, filter_cx_insertionSort c L]

/-- C7: in the sorted output, any two regions in the same row bucket (under
the computed row height) appear with non-decreasing horizontal center, and
regions tied on both bucket and horizontal center keep their relative input
order (the per-row sort is stable). -/
theorem sort_reading_order_rows :
    ∀ items : List Region,
      (sort_reading_order items).Pairwise
        (fun a b => keyOf (rowBucketOf items) a = keyOf (rowBucketOf items) b →
          cxOf a ≤ cxOf b) ∧
      ∀ (k : ℤ) (c : ℚ),
        (sort_reading_order items).filter
            (fun it => decide (keyOf (rowBucketOf items) it = k) &&
              decide (cxOf it = c)) =
          items.filter
            (fun it => decide (keyOf (rowBucketOf items) it = k) &&
              decide (cxOf it = c)) := by
  intro items
  rcases eq_or_ne items [] with rfl | hne
  · exact ⟨by simp [sort_reading_order], fun k c => by simp [sort_reading_order]⟩
  constructor
  · rw [sort_eq hne]
    refine List.pairwise_flatten.mpr ⟨?_, ?_⟩
    · intro l hl
      obtain ⟨k, _, rfl⟩ := List.mem_map.mp hl
      refine (List.sorted_insertionSort cxLe _).imp ?_
      intro a b h _
      exact h
    · rw [List.pairwise_map]
      refine (sortKeys_nodup items (rowBucketOf items)).imp ?_
      intro k1 k2 hne12 x hx y hy hkey
      exact absurd ((mem_rowComp_key hx).symm.trans
        (hkey.trans (mem_rowComp_key hy))) hne12
  · intro k c
    have hp : ∀ x, (decide (keyOf (rowBucketOf items) x = k) &&
        decide (cxOf x = c)) = true → keyOf (rowBucketOf items) x = k := by
      intro x hx
      simp only [Bool.and_eq_true, decide_eq_true_eq] at hx
      exact hx.1
    by_cases hk : k ∈ sortKeys items (rowBucketOf items)
    · rw [filter_sort_pick hne _ hp hk]
      have h1 : (rowComp items (rowBucketOf items) k).filter
          (fun it => decide (keyOf (rowBucketOf items) it = k) &&
            decide (cxOf it = c)) =
          (rowComp items (rowBucketOf items) k).filter
            (fun it => decide (cxOf it = c)) := by
        refine List.filter_congr ?_
        intro x hx
        simp [mem_rowComp_key hx]
      rw [h1]
      unfold rowComp
      rw [filter_cx_insertionSort c _, List.filter_filter]
      refine List.filter_congr ?_
      intro x _
      exact Bool.and_comm _ _
    · have hr : items.filter (fun it => decide (keyOf (rowBucketOf items) it = k) &&
          decide (cxOf it = c)) = [] := by
        rw [List.filter_eq_nil_iff]
        intro a ha hpa
        exact hk ((hp a hpa) ▸ keyOf_mem_sortKeys (rowBucketOf items) ha)
      have hl : (sort_reading_order items).filter
          (fun it => decide (keyOf (rowBucketOf items) it = k) &&
            decide (cxOf it = c)) = [] := by
        rw [List.filter_eq_nil_iff]
        intro a ha hpa
        exact hk ((hp a hpa) ▸ keyOf_mem_sortKeys (rowBucketOf items)
          ((sort_reading_order_perm items).mem_iff.mp ha))
      rw [hr, hl]

/-! ### Translation engine (`translate_utils.py`) -/

/-- Python `str.startswith`: character-level prefix test.  (Lean's own
`String.startsWith` is byte-position based and does not reduce in the
kernel; this is the same function on the character list.) -/
def strStartsWith (s p : String) : Bool := p.data.isPrefixOf s.data

/-- Python `str.strip()`: drop leading and trailing whitespace. -/
def pyStrip (s : String) : String :=
  ⟨((s.data.dropWhile Char.isWhitespace).reverse.dropWhile Char.isWhitespace).reverse⟩

/-- Python `str.lower()` (ASCII lowering; the language tags involved are
ASCII). -/
def pyLower (s : String) : String := ⟨s.data.map Char.toLower⟩

/-- Outcome of one LibreTranslate POST (`translate_libre`, lines 65-78):
an HTTP-ok response whose JSON may or may not carry `translatedText`, a
non-ok response, or a raised exception. -/
inductive LibreOutcome where
  | ok (translatedText : Option String)
  | notOk
  | exn
deriving DecidableEq, Repr

/-- `translate_libre` from `translate_utils.py`: returns the response's
`translatedText` on success and the original `text` in every failure case
(missing key, non-ok status, any exception).  The remote endpoint is an
oracle keyed by the query text. -/
def translate_libre (oracle : String → LibreOutcome) (text _src _tgt : String) : String :=
  match oracle text with
  | .ok t => t.getD text
  | .notOk => text
  | .exn => text

/-- Outcome of one OpenAI chat-completions POST as seen by
`translate_openai_batch` (lines 156-216): a 429 (with a quota-error flag
for the `insufficient_quota` substring check and the optional
`Retry-After` header), another non-ok status, a 2xx whose JSON parses to
an optional list of optional strings (`data.get("translations")`; `none`
entries model JSON `null`), a JSON parse error, or a raised exception. -/
inductive OAIOutcome where
  | http429 (quotaErr : Bool) (retryAfter : Option String)
  | httpError (status : Nat)
  | okParsed (translations : Option (List (Option String)))
  | jsonError
  | exn
deriving DecidableEq, Repr

/-- The last-error state threaded through the retry loop (`last_err`). -/
inductive OAIErr where
  | quota
  | rate (attempt : Nat)
  | httpError (status : Nat)
  | parse
  | unexpected
deriving DecidableEq, Repr

/-- Failure tag rendering (`tag = f"[OpenAI failed: {last_err}]" if last_err
else "[OpenAI failed]"`, line 219).  The exact human-readable error text is
abbreviated; every rendering keeps the `[OpenAI failed` prefix checked by
`translate_batch`. -/
def renderTag : Option OAIErr → String
  | none => "[OpenAI failed]"
  | some .quota => "[OpenAI failed: insufficient_quota]"
  | some (.rate a) => "[OpenAI failed: 429 rate limit (attempt " ++ toString (a + 1) ++ ")]"
  | some (.httpError s) => "[OpenAI failed: OpenAI error " ++ toString s ++ "]"
  | some .parse => "[OpenAI failed: JSON parse error]"
  | some .unexpected => "[OpenAI failed: Unexpected error]"

/-- Python `int()` on an all-digit string: base-10 value of the digits. -/
def digitsToNat (s : String) : Nat :=
  s.data.foldl (fun n c => 10 * n + (c.toNat - 48)) 0

/-- Python `str.isdigit()` for the ASCII digit strings the claim concerns
(CPython also accepts some non-ASCII digit characters, on which `int()`
can then fail; `"2.5"` is not a digit string either way). -/
def isDigits (s : String) : Bool := s.data.all Char.isDigit

/-- The 429 sleep computation (lines 171-177): honor a `Retry-After` header
that is a nonempty all-digit string, else exponential backoff
`2**attempt + random.random()*1.5` (the jitter is an oracle value), then
cap at 45 (`sleep_s = min(45, sleep_s)`). -/
def sleep429 (attempt : Nat) (retryAfter : Option String) (jitter : ℚ) : ℚ :=
  match retryAfter with
  | some s =>
    if s ≠ "" ∧ isDigits s then min 45 ((digitsToNat s : Nat) : ℚ)
    else min 45 ((2 : ℚ) ^ attempt + jitter)
  | none => min 45 ((2 : ℚ) ^ attempt + jitter)

/-- Result of one run of the retry loop: the returned strings, the sleep
durations performed (in order), and the number of requests issued. -/
structure OAIRun where
  result : List String
  sleeps : List ℚ
  requests : Nat
deriving DecidableEq, Repr

/-- The `for attempt in range(max_retries)` loop of `translate_openai_batch`
(lines 156-221), with `fuel` the number of remaining attempts and `attempt`
the current attempt index.  `oracle attempt` is the outcome of the request
of that attempt; `jitter attempt` the value of `random.random() * 1.5`.
Quota-flagged 429s and non-ok non-429 statuses break to the tagged
fallback return; other 429s sleep `sleep429` and retry; parse errors,
shape mismatches and exceptions sleep `min(10, 1.5 + attempt)` and retry;
a well-shaped response returns its entries, substituting `texts[i]` for
`null` entries. -/
def oaiGo (oracle : Nat → OAIOutcome) (jitter : Nat → ℚ) (texts : List String) :
    Nat → Nat → Option OAIErr → OAIRun
  | 0, _, le => ⟨texts.map (fun t => renderTag le ++ " " ++ t), [], 0⟩
  | fuel + 1, attempt, _ =>
    match oracle attempt with
    | .http429 true _ =>
      ⟨texts.map (fun t => renderTag (some .quota) ++ " " ++ t), [], 1⟩
    | .http429 false ra =>
      let d := sleep429 attempt ra (jitter attempt)
      let r := oaiGo oracle jitter texts fuel (attempt + 1) (some (.rate attempt))
      ⟨r.result, d :: r.sleeps, r.requests + 1⟩
    | .httpError s =>
      ⟨texts.map (fun t => renderTag (some (.httpError s)) ++ " " ++ t), [], 1⟩
    | .okParsed (some ts) =>
      if ts.length = texts.length then
        ⟨ts.mapIdx (fun i t => t.getD (texts.getD i "")), [], 1⟩
      else
        let d := min 10 ((3 : ℚ) / 2 + (attempt : ℚ))
        let r := oaiGo oracle jitter texts fuel (attempt + 1) (some .unexpected)
        ⟨r.result, d :: r.sleeps, r.requests + 1⟩
    | .okParsed none =>
      let d := min 10 ((3 : ℚ) / 2 + (attempt : ℚ))
      let r := oaiGo oracle jitter texts fuel (attempt + 1) (some .unexpected)
      ⟨r.result, d :: r.sleeps, r.requests + 1⟩
    | .jsonError =>
      let d := min 10 ((3 : ℚ) / 2 + (attempt : ℚ))
      let r := oaiGo oracle jitter texts fuel (attempt + 1) (some .parse)
      ⟨r.result, d :: r.sleeps, r.requests + 1⟩
    | .exn =>
      let d := min 10 ((3 : ℚ) / 2 + (attempt : ℚ))
      let r := oaiGo oracle jitter texts fuel (attempt + 1) (some .unexpected)
      ⟨r.result, d :: r.sleeps, r.requests + 1⟩

/-- `translate_openai_batch` from `translate_utils.py` (lines 105-221).
An empty API key short-circuits to per-item placeholders before any
request.  The language-code normalization and JSON prompt construction
(lines 126-152) only shape the request body, which the oracle abstracts. -/
def translate_openai_batch (oracle : Nat → OAIOutcome) (jitter : Nat → ℚ)
    (texts : List String) (_src _tgt api_key _model : String)
    (max_retries : Nat) : OAIRun :=
  if api_key = "" then ⟨texts.map (fun t => "[Missing OpenAI key] " ++ t), [], 0⟩
  else oaiGo oracle jitter texts max_retries 0 none

/-- Structural worker for `chunks`: peels `bs`-element slices off the
front.  The fuel argument only bounds the recursion depth; any fuel of at
least the list's length (the caller passes exactly that) yields all
slices, since with `bs > 0` each step drops at least one element. -/
def chunksGo {α : Type} (bs : Nat) : Nat → List α → List (List α)
  | _, [] => []
  | 0, _ :: _ => []
  | fuel + 1, x :: xs => (x :: xs).take bs :: chunksGo bs fuel ((x :: xs).drop bs)

/-- The `for i in range(0, len(texts), batch_size)` slicing of
`translate_batch` (line 255): successive slices `texts[i : i + batch_size]`.
Python raises `ValueError` on a zero step; the model returns no chunks
there (the pipeline always uses the positive default 18). -/
def chunks {α : Type} (bs : Nat) (l : List α) : List (List α) :=
  if bs = 0 then [] else chunksGo bs l.length l

/-- The per-item fallback check of `translate_batch` (lines 268-277): any
batched result carrying the `[OpenAI failed` prefix is replaced by one
LibreTranslate call on the original text.  The surrounding
`try/except` keeps the tagged result only if `translate_libre` raises,
which it never does (it catches every exception internally). -/
def reconcile (libreO : String → LibreOutcome) (src tgt : String)
    (chunk results : List String) : List String :=
  (chunk.zip results).map (fun p =>
    if strStartsWith p.2 "[OpenAI failed" then translate_libre libreO p.1 src tgt
    else p.2)

/-- `translate_batch` from `translate_utils.py` (lines 228-292).  `oai bi`
and `jitter bi` are the request/jitter oracles of batch number `bi`;
`libreO` the LibreTranslate oracle.  OpenAI batches use `max_retries = 5`
(the callee's default). -/
def translate_batch (oai : Nat → Nat → OAIOutcome) (jitter : Nat → Nat → ℚ)
    (libreO : String → LibreOutcome) (items : List Region)
    (ocr_lang target_lang backend openai_key _openai_model : String)
    (batch_size : Nat) : List Region :=
  if items = [] then items
  else
    let texts := items.map (fun it => pyStrip it.text)
    if strStartsWith backend "OpenAI" then
      let translated := ((chunks batch_size texts).enum.map (fun p =>
        reconcile libreO ocr_lang target_lang p.2
          (translate_openai_batch (oai p.1) (jitter p.1) p.2 ocr_lang target_lang
            openai_key _openai_model 5).result)).flatten
      items.enum.map (fun p =>
        { p.2 with translation := some (translated.getD p.1 p.2.text) })
    else
      items.map (fun it =>
        { it with
          translation := some (translate_libre libreO (pyStrip it.text) ocr_lang target_lang) })

theorem oaiGo_length (oracle : Nat → OAIOutcome) (jitter : Nat → ℚ)
    (texts : List String) :
    ∀ (fuel attempt : Nat) (le : Option OAIErr),
      (oaiGo oracle jitter texts fuel attempt le).result.length = texts.length
  | 0, _, le => by simp [oaiGo]
  | fuel + 1, attempt, le => by
    rcases hor : oracle attempt with ⟨q, ra⟩ | s | ts | _ | _
    · cases q
      · simp only [oaiGo, hor]
        exact oaiGo_length oracle jitter texts fuel (attempt + 1) _
      · simp [oaiGo, hor]
    · simp [oaiGo, hor]
    · cases ts with
      | none =>
        simp only [oaiGo, hor]
        exact oaiGo_length oracle jitter texts fuel (attempt + 1) _
      | some l =>
        simp only [oaiGo, hor]
        split_ifs with hlen
        · simpa using hlen
        · exact oaiGo_length oracle jitter texts fuel (attempt + 1) _
    · simp only [oaiGo, hor]
      exact oaiGo_length oracle jitter texts fuel (attempt + 1) _
    · simp only [oaiGo, hor]
      exact oaiGo_length oracle jitter texts fuel (attempt + 1) _

/-- C1: `translate_openai_batch` always returns exactly one string per
input text, and `translate_batch` always returns exactly one item per
input item — for every backend and every behaviour of the remote
endpoints, including total failure of every request. -/
theorem translate_batch_lengths :
    (∀ (oracle : Nat → OAIOutcome) (jitter : Nat → ℚ) (texts : List String)
      (src tgt key model : String) (mr : Nat),
      (translate_openai_batch oracle jitter texts src tgt key model mr).result.length =
        texts.length) ∧
    ∀ (oai : Nat → Nat → OAIOutcome) (jitter : Nat → Nat → ℚ)
      (libreO : String → LibreOutcome) (items : List Region)
      (ocr_lang target_lang backend openai_key openai_model : String)
      (batch_size : Nat),
      (translate_batch oai jitter libreO items ocr_lang target_lang backend
        openai_key openai_model batch_size).length = items.length := by
  constructor
  · intro oracle jitter texts src tgt key model mr
    unfold translate_openai_batch
    split_ifs with h
    · simp
    · exact oaiGo_length oracle jitter texts mr 0 none
  · intro oai jitter libreO items ocr_lang target_lang backend openai_key
      openai_model batch_size
    unfold translate_batch
    split_ifs with h1 h2
    · rfl
    · simp [List.enum, List.enumFrom_length]
    · simp

/-- C9: with an empty API key, `translate_openai_batch` issues zero
requests, performs zero sleeps, and returns each input text prefixed with
the `[Missing OpenAI key]` tag — independently of the remote oracle. -/
theorem translate_openai_batch_missing_key :
    ∀ (oracle : Nat → OAIOutcome) (jitter : Nat → ℚ) (texts : List String)
      (src tgt model : String) (mr : Nat),
      translate_openai_batch oracle jitter texts src tgt "" model mr =
        ⟨texts.map (fun t => "[Missing OpenAI key] " ++ t), [], 0⟩ := by
  intro oracle jitter texts src tgt model mr
  unfold translate_openai_batch
  rw [if_pos rfl]

/-- C10: on a non-quota 429, a `Retry-After` header that is a nonempty
all-digit string with value `v` produces a sleep of exactly `min 45 v`
(the 45-unit cap applies to the server-provided delay too), while any
other `Retry-After` string (e.g. `"2.5"`) is ignored in favour of the
capped exponential backoff `min 45 (2^attempt + jitter)`; the retry loop
sleeps exactly this `sleep429` duration before its next attempt. -/
theorem sleep429_behavior :
    (∀ (a : Nat) (s : String) (jit : ℚ) (v : Nat),
        s ≠ "" → isDigits s = true → digitsToNat s = v →
        sleep429 a (some s) jit = min 45 (v : ℚ)) ∧
    (∀ (a : Nat) (s : String) (jit : ℚ),
        ¬(s ≠ "" ∧ isDigits s = true) →
        sleep429 a (some s) jit = min 45 ((2 : ℚ) ^ a + jit)) ∧
    (∀ (oracle : Nat → OAIOutcome) (jitter : Nat → ℚ) (texts : List String)
        (fuel attempt : Nat) (le : Option OAIErr) (s : Option String),
        oracle attempt = .http429 false s →
        (oaiGo oracle jitter texts (fuel + 1) attempt le).sleeps.head? =
          some (sleep429 attempt s (jitter attempt))) ∧
    ∀ (oracle : Nat → OAIOutcome) (jitter : Nat → ℚ) (texts : List String)
        (src tgt key model : String) (mr : Nat), key ≠ "" →
        translate_openai_batch oracle jitter texts src tgt key model mr =
          oaiGo oracle jitter texts mr 0 none := by
  refine ⟨?_, ?_, ?_, ?_⟩
  · intro a s jit v h1 h2 h3
    simp only [sleep429]
    rw [if_pos ⟨h1, h2⟩, h3]
  · intro a s jit h
    simp only [sleep429]
    rw [if_neg h]
  · intro oracle jitter texts fuel attempt le s h
    simp only [oaiGo, h, List.head?_cons]
  · intro oracle jitter texts src tgt key model mr h
    unfold translate_openai_batch
    rw [if_neg h]

/-- Witness for C10 at concrete inputs: header ` "100"` sleeps min 45 100,
header `"2.5"` falls back to exponential backoff. -/
theorem sleep429_behavior_witness :
    (oaiGo (fun _ => OAIOutcome.http429 false (some "100")) (fun _ => 0) ["hi"] 1 0
        none).sleeps.head? = some (min 45 ((100 : Nat) : ℚ)) ∧
    sleep429 0 (some "2.5") 0 = min 45 ((2 : ℚ) ^ (0 : Nat) + 0) ∧
    translate_openai_batch (fun _ => OAIOutcome.http429 false (some "100")) (fun _ => 0)
        ["hi"] "ja" "en" "k" "gpt-4o-mini" 1 =
      oaiGo (fun _ => OAIOutcome.http429 false (some "100")) (fun _ => 0) ["hi"] 1 0 none := by
  refine ⟨?_, ?_, ?_⟩
  · rw [sleep429_behavior.2.2.1 _ _ _ 0 0 none (some "100") rfl,
      sleep429_behavior.1 0 "100" 0 100 (by decide) (by decide) (by decide)]
  · exact sleep429_behavior.2.1 0 "2.5" 0 (by decide)
  · exact sleep429_behavior.2.2.2 _ _ _ "ja" "en" "k" "gpt-4o-mini" 1 (by decide)

/-- Counterexample for C2 as stated: with the batched service failing every
attempt and the fallback also failing, the final output for the item is the
original text `"hello"` (which does not carry the failure tag), because
`translate_libre` swallows its own failure and returns the original text,
which the reconciliation then appends — the tagged failure string is not
kept. -/
theorem translate_batch_fallback_counterexample :
    (translate_batch (fun _ _ => OAIOutcome.exn) (fun _ _ => 0)
        (fun _ => LibreOutcome.exn) [⟨"hello", [], 1, none⟩] "ja" "en"
        "OpenAI (API key required, batched)" "k" "m" 18).map Region.translation =
      [some "hello"] ∧
    strStartsWith "hello" "[OpenAI failed" = false := by
  constructor
  · decide
  · decide

/-- C2 (amended): in `translate_batch`'s post-batch reconciliation, every
item whose batched result carries the `[OpenAI failed` prefix is replaced
by the result of one single-item `translate_libre` call on the original
text; and whenever that fallback call fails (non-ok response, exception,
or a response without `translatedText`), the fallback returns the original
text unchanged, so the original text — not the tagged failure string —
appears for that item in the final output.  (The tagged string would be
kept only if `translate_libre` raised, which it never does: it catches
every exception internally.) -/
theorem reconcile_fallback :
    ∀ (libreO : String → LibreOutcome) (src tgt : String)
      (chunk results : List String) (i : Nat) (orig res : String),
      (chunk.zip results)[i]? = some (orig, res) →
      strStartsWith res "[OpenAI failed" = true →
      (reconcile libreO src tgt chunk results)[i]? =
        some (translate_libre libreO orig src tgt) ∧
      ((libreO orig = .notOk ∨ libreO orig = .exn ∨ libreO orig = .ok none) →
        translate_libre libreO orig src tgt = orig) := by
  intro libreO src tgt chunk results i orig res h1 h2
  constructor
  · unfold reconcile
    rw [List.getElem?_map, h1]
    simp [h2]
  · intro hfail
    unfold translate_libre
    rcases hfail with h | h | h
    · rw [h]
    · rw [h]
    · rw [h]
      rfl

/-- Witness for the amended C2 at a concrete tagged result with a failing
fallback. -/
theorem reconcile_fallback_witness :
    (reconcile (fun _ => LibreOutcome.exn) "ja" "en" ["hello"]
        ["[OpenAI failed] hello"])[0]? =
      some (translate_libre (fun _ => LibreOutcome.exn) "hello" "ja" "en") ∧
    (((fun _ => LibreOutcome.exn) "hello" = LibreOutcome.notOk ∨
        (fun _ => LibreOutcome.exn) "hello" = LibreOutcome.exn ∨
        (fun _ => LibreOutcome.exn) "hello" = LibreOutcome.ok none) →
      translate_libre (fun _ => LibreOutcome.exn) "hello" "ja" "en" = "hello") :=
  reconcile_fallback (fun _ => LibreOutcome.exn) "ja" "en" ["hello"]
    ["[OpenAI failed] hello"] 0 "hello" "[OpenAI failed] hello" (by decide) (by decide)

/-! ### EasyOCR language handling (`app.py`) -/

/-- The tag normalization at the top of `safe_easyocr_lang_list`:
`(primary or "en").strip().lower()` (an empty string is falsy in Python). -/
def normalizedTag (primary : String) : String :=
  pyLower (pyStrip (if primary = "" then "en" else primary))

/-- `safe_easyocr_lang_list` from `app.py` (lines 28-52): normalize the
requested primary tag (`(primary or "en").strip().lower()`), pair the
recognized tags with English per EasyOCR's pairing constraints, and fall
through to `[primary if primary else "en"]`. -/
def safe_easyocr_lang_list (primary : String) : List String :=
  let p := normalizedTag primary
  if p = "ch_sim" ∨ p = "ch_tra" ∨ p = "zh_sim" ∨ p = "zh_tra" then
    if strStartsWith p "ch_sim" ∨ p = "zh_sim" then ["ch_sim", "en"] else ["ch_tra", "en"]
  else if p = "ja" ∨ p = "ko" then [p, "en"]
  else if p = "ar" then ["ar", "en"]
  else if p = "fr" ∨ p = "es" ∨ p = "de" ∨ p = "ru" ∨ p = "pt" ∨ p = "it" ∨ p = "tr" then
    [p, "en"]
  else [if p = "" then "en" else p]

/-- Counterexample for C3 as stated: an unrecognized non-empty tag is
returned as itself, not replaced by `["en"]` — the final fallthrough is
`[primary if primary else "en"]`, which defaults to English only for the
empty string. -/
theorem safe_easyocr_lang_list_counterexample :
    safe_easyocr_lang_list "xx" = ["xx"] ∧ safe_easyocr_lang_list "xx" ≠ ["en"] := by
  constructor
  · decide
  · decide

/-- C3 (amended): an empty or whitespace-only requested tag normalizes to
the empty string and yields exactly `["en"]`; but an unrecognized
*non-empty* tag `p` yields the singleton `[p]` (stripped and lowercased),
not `["en"]` — only the empty tag defaults to English. -/
theorem safe_easyocr_lang_list_default :
    (∀ primary : String, normalizedTag primary = "" →
      safe_easyocr_lang_list primary = ["en"]) ∧
    ∀ primary : String,
      normalizedTag primary ∉ (["ch_sim", "ch_tra", "zh_sim", "zh_tra", "ja", "ko",
        "ar", "fr", "es", "de", "ru", "pt", "it", "tr"] : List String) →
      normalizedTag primary ≠ "" →
      safe_easyocr_lang_list primary = [normalizedTag primary] := by
  constructor
  · intro primary h
    unfold safe_easyocr_lang_list
    rw [h]
    decide
  · intro primary h1 h2
    unfold safe_easyocr_lang_list
    have hA : ¬(normalizedTag primary = "ch_sim" ∨ normalizedTag primary = "ch_tra" ∨
        normalizedTag primary = "zh_sim" ∨ normalizedTag primary = "zh_tra") := by
      intro hc
      rcases hc with h | h | h | h <;> exact h1 (by simp [h])
    have hB : ¬(normalizedTag primary = "ja" ∨ normalizedTag primary = "ko") := by
      intro hc
      rcases hc with h | h <;> exact h1 (by simp [h])
    have hC : ¬(normalizedTag primary = "ar") := fun h => h1 (by simp [h])
    have hD : ¬(normalizedTag primary = "fr" ∨ normalizedTag primary = "es" ∨
        normalizedTag primary = "de" ∨ normalizedTag primary = "ru" ∨
        normalizedTag primary = "pt" ∨ normalizedTag primary = "it" ∨
        normalizedTag primary = "tr") := by
      intro hc
      rcases hc with h | h | h | h | h | h | h <;> exact h1 (by simp [h])
    rw [if_neg hA, if_neg hB, if_neg hC, if_neg hD, if_neg h2]

/-- Witness for the amended C3: whitespace-only input gives English alone,
while the unrecognized tag `"xx"` is passed through as a singleton. -/
theorem safe_easyocr_lang_list_default_witness :
    safe_easyocr_lang_list "  " = ["en"] ∧
    safe_easyocr_lang_list "xx" = [normalizedTag "xx"] :=
  ⟨safe_easyocr_lang_list_default.1 "  " (by decide),
   safe_easyocr_lang_list_default.2 "xx" (by decide) (by decide)⟩

/-! ### Auto language probing (`run_ocr_auto`, app.py lines 76-128) -/

/-- One raw EasyOCR detection `(box, text, conf)`. -/
structure RawDet where
  box : List (ℚ × ℚ)
  text : String
  conf : ℚ
deriving DecidableEq, Repr

/-- The `_clean` helper: drop detections whose stripped text is empty,
keep the stripped text (confidence is coerced to float, a no-op here). -/
def cleanRaw (raw : List RawDet) : List RawDet :=
  raw.filterMap (fun d =>
    if pyStrip d.text = "" then none else some { d with text := pyStrip d.text })

/-- The `_score` helper: `len(cleaned) * (sum(confs) / max(1, len(confs)))`,
`0.0` for an empty cleaned list. -/
def scoreRaw (raw : List RawDet) : ℚ :=
  let c := cleanRaw raw
  if c = [] then 0
  else (c.length : ℚ) * ((c.map (fun d => d.conf)).sum / (max 1 c.length : ℚ))

/-- The tracked best candidate `{"lang": ..., "raw": ..., "score": ...}`. -/
structure Best where
  lang : String
  raw : List RawDet
  score : ℚ
deriving DecidableEq, Repr

/-- The candidate loop of `run_ocr_auto`: each candidate's OCR invocation
(the `ocr` oracle, keyed by the safe language list) is tried; exceptions
skip the candidate; a strictly higher score replaces the best; the loop
breaks early once the best has score ≥ 6.0 and at least 8 cleaned
detections. -/
def probeLoop (ocr : List String → Except Unit (List RawDet)) :
    List String → Best → Best
  | [], best => best
  | cand :: rest, best =>
    match ocr (safe_easyocr_lang_list cand) with
    | .error _ => probeLoop ocr rest best
    | .ok raw =>
      let s := scoreRaw raw
      let best' := if best.score < s then ⟨cand, raw, s⟩ else best
      if 6 ≤ best'.score ∧ 8 ≤ (cleanRaw best'.raw).length then best'
      else probeLoop ocr rest best'

/-- `run_ocr_auto` from `app.py`: probe the fixed candidate list, starting
from the default `("en", [], 0.0)`, and return the best language with its
raw (uncleaned) detections. -/
def run_ocr_auto (ocr : List String → Except Unit (List RawDet)) :
    String × List RawDet :=
  let best := probeLoop ocr ["ja", "ch_sim", "ko", "en", "ar", "fr", "ch_tra"]
    ⟨"en", [], 0⟩
  (best.lang, best.raw)

/-- C8: if OCR raises on every candidate language configuration,
`run_ocr_auto` returns English with an empty detection list instead of
propagating an error. -/
theorem run_ocr_auto_total_failure :
    ∀ ocr : List String → Except Unit (List RawDet),
      (∀ langs, ocr langs = .error ()) → run_ocr_auto ocr = ("en", []) := by
  intro ocr h
  unfold run_ocr_auto
  simp only [probeLoop, h]

/-- Witness for C8: the everywhere-failing OCR oracle. -/
theorem run_ocr_auto_total_failure_witness :
    run_ocr_auto (fun _ => .error ()) = ("en", []) :=
  run_ocr_auto_total_failure (fun _ => .error ()) (fun _ => rfl)
